import Mathlib

/-!
Verification of the `linq` Go library.

The development shallowly embeds the two engine revisions found in the
repository:

* the pull-based revision of `linq.go` (`Query` with
  `iterate func() func() (T, bool)` plus the `fastSlice`/`fastWhere`
  fast-path descriptor), modelled here by `Linq.Query`, whose `run` field
  is the list of elements the query's iterator produces;
* the push-based revision of `query.go`/`sort.go` (`iter.Seq[T]` with a
  `compare`/`sortSource` ordering state), modelled by `Linq.QueryS`.

Stateful closures are modelled as structurally recursive list transformers
that mirror the corresponding Go loops; the concurrent operators
(`SelectAsync`, `SelectAsyncCtx`, `ForEachParallel`) are modelled by
explicit transition systems over the coordination state (dispatched items,
in-flight workers, channel buffer occupancy, shutdown flags), and by the
deterministic per-worker stride schedule where the Go code uses one.
-/

namespace Linq

/-- Mirrors the flattened iterator built by `Query.Where` on the fast path
(`linq.go`): walk the backing slice in order and yield exactly the elements
satisfying the (combined) predicate. The same loop shape is the generic
`Where` wrapper's observable behaviour. -/
def whereLoop {α : Type} (p : α → Bool) : List α → List α
  | [] => []
  | x :: xs => if p x then x :: whereLoop p xs else whereLoop p xs

/-- Mirrors the generic `Take` wrapper (`linq.go`): a counter `n` starts at
`count`; each pull returns nothing once `n ≤ 0`, otherwise decrements and
forwards the upstream element. -/
def takeLoop {α : Type} (n : Int) : List α → List α
  | [] => []
  | x :: xs => if n ≤ 0 then [] else x :: takeLoop (n - 1) xs

/-- Mirrors the generic `Skip` wrapper (`linq.go`): the first pull discards
`count` upstream elements (stopping early on exhaustion), after which
elements are forwarded unchanged. -/
def skipLoop {α : Type} (n : Int) : List α → List α
  | [] => []
  | x :: xs => if 0 < n then skipLoop (n - 1) xs else x :: xs

/-- Mirrors the `Select` wrapper (`linq.go`): each pull applies the selector
to the next upstream element. -/
def selectLoop {α : Type} (f : α → α) : List α → List α
  | [] => []
  | x :: xs => f x :: selectLoop f xs

/-- Model of the pull-based `Query[T]` of `linq.go`.  `run` is the sequence
of elements the query's iterator (`iterate`) produces; `fastSlice` and
`fastWhere` are the fast-path descriptor fields carried verbatim from the
Go struct. -/
structure Query (α : Type) where
  run : List α
  fastSlice : Option (List α)
  fastWhere : Option (α → Bool)

/-- `From` (`linq.go`): a slice-backed query; the iterator walks the slice,
and the fast-path descriptor records the backing slice with no predicate. -/
def fromSlice {α : Type} (source : List α) : Query α :=
  { run := source, fastSlice := some source, fastWhere := none }

/-- `FromChannel` (`linq.go`): a push-based source draining a channel that
delivers the given elements in order; it carries no fast-path descriptor. -/
def fromChannel {α : Type} (source : List α) : Query α :=
  { run := source, fastSlice := none, fastWhere := none }

/-- `Query.Where` (`linq.go`): on the fast path the new predicate is
combined (short-circuit AND) with the accumulated one and a single
flattened scan over the original backing slice is built; otherwise the
upstream iterator is wrapped. -/
def whereQ {α : Type} (q : Query α) (predicate : α → Bool) : Query α :=
  match q.fastSlice with
  | some source =>
      let combinedPred : α → Bool :=
        match q.fastWhere with
        | none => predicate
        | some oldPred => fun t => oldPred t && predicate t
      { run := whereLoop combinedPred source
        fastSlice := some source
        fastWhere := some combinedPred }
  | none =>
      { run := whereLoop predicate q.run, fastSlice := none, fastWhere := none }

/-- `Query.Skip` (`linq.go`): a pure slice query (fast path, no pending
predicate) is re-windowed without iteration; otherwise a counting wrapper
drops the first `count` pulls. -/
def skipQ {α : Type} (q : Query α) (count : Int) : Query α :=
  match q.fastSlice, q.fastWhere with
  | some s, none =>
      if (s.length : Int) ≤ count then fromSlice []
      else if count ≤ 0 then q
      else fromSlice (s.drop count.toNat)
  | _, _ =>
      { run := skipLoop count q.run, fastSlice := none, fastWhere := none }

/-- `Query.Take` (`linq.go`): a pure slice query is re-windowed without
iteration; otherwise a counting wrapper stops after `count` pulls. -/
def takeQ {α : Type} (q : Query α) (count : Int) : Query α :=
  match q.fastSlice, q.fastWhere with
  | some s, none =>
      if count ≤ 0 then fromSlice []
      else if (s.length : Int) ≤ count then q
      else fromSlice (s.take count.toNat)
  | _, _ =>
      { run := takeLoop count q.run, fastSlice := none, fastWhere := none }

/-- `Select` (`linq.go`, element-type preserving instance): always the
generic wrapper; the result carries no fast-path descriptor. -/
def selectQ {α : Type} (q : Query α) (selector : α → α) : Query α :=
  { run := selectLoop selector q.run, fastSlice := none, fastWhere := none }

/-- One operator of a `Where`/`Select`/`Take`/`Skip` chain. -/
inductive Op (α : Type) where
  | whereOp (p : α → Bool)
  | selectOp (f : α → α)
  | takeOp (n : Int)
  | skipOp (n : Int)

/-- Apply one chain operator to a query. -/
def applyOp {α : Type} (op : Op α) (q : Query α) : Query α :=
  match op with
  | .whereOp p => whereQ q p
  | .selectOp f => selectQ q f
  | .takeOp n => takeQ q n
  | .skipOp n => skipQ q n

/-- Apply a whole operator chain, left to right. -/
def applyChain {α : Type} (ops : List (Op α)) (q : Query α) : Query α :=
  ops.foldl (fun q op => applyOp op q) q

/-- Pure list-level meaning of one chain operator. -/
def opSem {α : Type} (op : Op α) (l : List α) : List α :=
  match op with
  | .whereOp p => whereLoop p l
  | .selectOp f => selectLoop f l
  | .takeOp n => takeLoop n l
  | .skipOp n => skipLoop n l

/-- Pure list-level meaning of an operator chain. -/
def chainSem {α : Type} (ops : List (Op α)) (l : List α) : List α :=
  ops.foldl (fun l op => opSem op l) l

/-- Consistency of the fast-path descriptor with the iterator: whenever a
backing slice is recorded, the iterator yields exactly the slice elements
that pass the accumulated predicate, in backing order (the documented
fast-path invariant). -/
def QInv {α : Type} (q : Query α) : Prop :=
  ∀ s, q.fastSlice = some s →
    q.run = whereLoop (q.fastWhere.getD (fun _ => true)) s

theorem whereLoop_true {α : Type} (l : List α) :
    whereLoop (fun _ => true) l = l := by
  induction l with
  | nil => rfl
  | cons x xs ih => simp [whereLoop, ih]

theorem whereLoop_eq_filter {α : Type} (p : α → Bool) (l : List α) :
    whereLoop p l = l.filter p := by
  induction l with
  | nil => rfl
  | cons x xs ih =>
      by_cases h : p x <;> simp [whereLoop, h, ih, List.filter_cons]

theorem whereLoop_and {α : Type} (p₁ p₂ : α → Bool) (l : List α) :
    whereLoop (fun t => p₁ t && p₂ t) l = whereLoop p₂ (whereLoop p₁ l) := by
  induction l with
  | nil => rfl
  | cons x xs ih =>
      by_cases h1 : p₁ x <;> by_cases h2 : p₂ x <;>
        simp [whereLoop, h1, h2, ih]

theorem takeLoop_eq_take {α : Type} (n : Int) (l : List α) :
    takeLoop n l = l.take n.toNat := by
  induction l generalizing n with
  | nil => simp [takeLoop]
  | cons x xs ih =>
      by_cases h : n ≤ 0
      · have hn : n.toNat = 0 := by omega
        rw [hn]
        simp [takeLoop, h]
      · have hn : n.toNat = (n - 1).toNat + 1 := by omega
        rw [hn]
        simp only [takeLoop, if_neg h, List.take_succ_cons, ih]

theorem skipLoop_eq_drop {α : Type} (n : Int) (l : List α) :
    skipLoop n l = l.drop n.toNat := by
  induction l generalizing n with
  | nil => simp [skipLoop]
  | cons x xs ih =>
      by_cases h : 0 < n
      · have hn : n.toNat = (n - 1).toNat + 1 := by omega
        rw [hn]
        simp only [skipLoop, if_pos h, List.drop_succ_cons, ih]
      · have hn : n.toNat = 0 := by omega
        rw [hn]
        simp [skipLoop, h]

theorem selectLoop_eq_map {α : Type} (f : α → α) (l : List α) :
    selectLoop f l = l.map f := by
  induction l with
  | nil => rfl
  | cons x xs ih => simp [selectLoop, ih]

theorem QInv_fromSlice {α : Type} (s : List α) : QInv (fromSlice s) := by
  intro s' h
  simp only [fromSlice] at h ⊢
  cases h
  simp [whereLoop_true]

theorem QInv_fromChannel {α : Type} (s : List α) : QInv (fromChannel s) := by
  intro s' h
  simp [fromChannel] at h

theorem QInv_noFast {α : Type} (r : List α) (w : Option (α → Bool)) :
    QInv ⟨r, none, w⟩ := by
  intro s hs
  simp at hs

theorem QInv_flatWhere {α : Type} (s : List α) (p : α → Bool) :
    QInv ⟨whereLoop p s, some s, some p⟩ := by
  intro s' hs'
  obtain rfl : s = s' := Option.some.inj hs'
  rfl

theorem whereQ_run_inv {α : Type} (q : Query α) (h : QInv q) (p : α → Bool) :
    (whereQ q p).run = whereLoop p q.run ∧ QInv (whereQ q p) := by
  obtain ⟨r, fs, fw⟩ := q
  cases fs with
  | none => exact ⟨rfl, QInv_noFast _ _⟩
  | some s =>
      have hr := h s rfl
      cases fw with
      | none =>
          rw [Option.getD, whereLoop_true] at hr
          replace hr : r = s := hr
          constructor
          · show whereLoop p s = whereLoop p r
            rw [hr]
          · exact QInv_flatWhere s p
      | some oldPred =>
          rw [Option.getD] at hr
          replace hr : r = whereLoop oldPred s := hr
          constructor
          · show whereLoop (fun t => oldPred t && p t) s = whereLoop p r
            rw [hr, whereLoop_and]
          · exact QInv_flatWhere s _

theorem takeQ_run_inv {α : Type} (q : Query α) (h : QInv q) (n : Int) :
    (takeQ q n).run = takeLoop n q.run ∧ QInv (takeQ q n) := by
  obtain ⟨r, fs, fw⟩ := q
  cases fs with
  | none => exact ⟨rfl, QInv_noFast _ _⟩
  | some s =>
      cases fw with
      | some p => exact ⟨rfl, QInv_noFast _ _⟩
      | none =>
          have hr := h s rfl
          rw [Option.getD, whereLoop_true] at hr
          replace hr : r = s := hr
          rw [takeLoop_eq_take]
          by_cases h1 : n ≤ 0
          · have hn : n.toNat = 0 := by omega
            refine ⟨?_, ?_⟩ <;> simp only [takeQ, if_pos h1]
            · simp [fromSlice, hn]
            · exact QInv_fromSlice []
          · by_cases h2 : (s.length : Int) ≤ n
            · have hlen : r.length ≤ n.toNat := by rw [hr]; omega
              refine ⟨?_, ?_⟩ <;>
                simp only [takeQ, if_neg h1, if_pos h2]
              · show r = r.take n.toNat
                rw [List.take_of_length_le hlen]
              · exact h
            · refine ⟨?_, ?_⟩ <;>
                simp only [takeQ, if_neg h1, if_neg h2]
              · show s.take n.toNat = r.take n.toNat
                rw [hr]
              · exact QInv_fromSlice _

theorem skipQ_run_inv {α : Type} (q : Query α) (h : QInv q) (n : Int) :
    (skipQ q n).run = skipLoop n q.run ∧ QInv (skipQ q n) := by
  obtain ⟨r, fs, fw⟩ := q
  cases fs with
  | none => exact ⟨rfl, QInv_noFast _ _⟩
  | some s =>
      cases fw with
      | some p => exact ⟨rfl, QInv_noFast _ _⟩
      | none =>
          have hr := h s rfl
          rw [Option.getD, whereLoop_true] at hr
          replace hr : r = s := hr
          rw [skipLoop_eq_drop]
          by_cases h1 : (s.length : Int) ≤ n
          · have hlen : r.length ≤ n.toNat := by rw [hr]; omega
            refine ⟨?_, ?_⟩ <;> simp only [skipQ, if_pos h1]
            · show ([] : List α) = r.drop n.toNat
              rw [List.drop_eq_nil_of_le hlen]
            · exact QInv_fromSlice []
          · by_cases h2 : n ≤ 0
            · have hn : n.toNat = 0 := by omega
              refine ⟨?_, ?_⟩ <;>
                simp only [skipQ, if_neg h1, if_pos h2]
              · simp [hn]
              · exact h
            · refine ⟨?_, ?_⟩ <;>
                simp only [skipQ, if_neg h1, if_neg h2]
              · show s.drop n.toNat = r.drop n.toNat
                rw [hr]
              · exact QInv_fromSlice _

theorem applyOp_run_inv {α : Type} (op : Op α) (q : Query α) (h : QInv q) :
    (applyOp op q).run = opSem op q.run ∧ QInv (applyOp op q) := by
  cases op with
  | whereOp p => exact whereQ_run_inv q h p
  | selectOp f => exact ⟨rfl, QInv_noFast _ _⟩
  | takeOp n => exact takeQ_run_inv q h n
  | skipOp n => exact skipQ_run_inv q h n

theorem applyChain_run {α : Type} (ops : List (Op α)) (q : Query α)
    (h : QInv q) : (applyChain ops q).run = chainSem ops q.run := by
  induction ops generalizing q with
  | nil => rfl
  | cons op ops ih =>
      have h1 := applyOp_run_inv op q h
      simp only [applyChain, chainSem, List.foldl_cons]
      rw [← h1.1] at *
      exact ih (applyOp op q) h1.2

/-- C1.  For every slice source and every chain of
`Where`/`Select`/`Take`/`Skip` operators, the chain evaluated on the
fast-path query built by `From` yields exactly the same output sequence
(same elements, same order) as the identical chain evaluated on a
non-fast-path query (as built by `FromChannel`) delivering the same
elements in the same order. -/
theorem C1_fastPath_fallback_equiv {α : Type} (src : List α)
    (ops : List (Op α)) :
    (applyChain ops (fromSlice src)).run
      = (applyChain ops (fromChannel src)).run := by
  rw [applyChain_run ops (fromSlice src) (QInv_fromSlice src),
    applyChain_run ops (fromChannel src) (QInv_fromChannel src)]
  rfl

theorem foldl_whereQ_fastSlice {α : Type} (ps : List (α → Bool))
    (q : Query α) (s : List α) (h : q.fastSlice = some s) :
    (ps.foldl whereQ q).fastSlice = some s := by
  induction ps generalizing q with
  | nil => exact h
  | cons p ps ih =>
      apply ih
      obtain ⟨run, fastSlice, fastWhere⟩ := q
      simp only at h
      subst h
      cases fastWhere <;> rfl

theorem foldl_filter_all {α : Type} (ps : List (α → Bool)) (l : List α) :
    ps.foldl (fun l p => l.filter p) l
      = l.filter (fun t => ps.all (fun p => p t)) := by
  induction ps generalizing l with
  | nil => simp
  | cons p ps ih =>
      simp only [List.foldl_cons, ih, List.filter_filter, List.all_cons]
      exact List.filter_congr fun a _ => by rw [Bool.and_comm]

/-- C4.  Chaining `K` `Where` calls on a fast-path query produces exactly
the same output sequence as a single `Where` whose predicate is the
short-circuiting logical AND of the `K` predicates, and the fused query
still records the original backing slice in its fast-path descriptor. -/
theorem C4_where_fusion {α : Type} (src : List α) (ps : List (α → Bool)) :
    (ps.foldl whereQ (fromSlice src)).fastSlice = some src ∧
      (ps.foldl whereQ (fromSlice src)).run
        = (whereQ (fromSlice src) (fun t => ps.all (fun p => p t))).run := by
  constructor
  · exact foldl_whereQ_fastSlice ps (fromSlice src) src rfl
  · have h1 : ps.foldl whereQ (fromSlice src)
        = applyChain (ps.map Op.whereOp) (fromSlice src) := by
      simp only [applyChain, List.foldl_map]
      rfl
    rw [h1, applyChain_run _ _ (QInv_fromSlice src)]
    have h2 : chainSem (ps.map Op.whereOp) (fromSlice src).run
        = ps.foldl (fun l p => l.filter p) src := by
      simp only [chainSem, List.foldl_map, fromSlice]
      congr 1
      funext l p
      exact whereLoop_eq_filter p l
    rw [h2, foldl_filter_all]
    simp only [whereQ, fromSlice, whereLoop_eq_filter]

/-! ### Set algebra of the pull-based revision (`linq.go`):
`Distinct`, `Union`, `Except`, `Intersect`.  The Go `map[T]struct{}` seen
sets are modelled as lists queried by membership. -/

/-- The dedup scan shared by `Distinct` and (with the seen set carried
over between its two phases) `Union` (`linq.go`): emit each element not yet
in the `seen` set, inserting emitted elements; returns the emitted elements
together with the final seen set. -/
def dedupScan {α : Type} [DecidableEq α] (seen : List α) :
    List α → List α × List α
  | [] => ([], seen)
  | x :: xs =>
      if x ∈ seen then dedupScan seen xs
      else (x :: (dedupScan (x :: seen) xs).1, (dedupScan (x :: seen) xs).2)

/-- `Query.Distinct` (`linq.go`): dedup scan with an initially empty seen
set. -/
def distinctRun {α : Type} [DecidableEq α] (l : List α) : List α :=
  (dedupScan [] l).1

/-- `Query.Union` (`linq.go`): scan the first sequence, then the second,
with one seen set shared by both phases. -/
def unionRun {α : Type} [DecidableEq α] (l₁ l₂ : List α) : List α :=
  (dedupScan [] l₁).1 ++ (dedupScan (dedupScan [] l₁).2 l₂).1

/-- The emitting phase of `Query.Except` (`linq.go`): emit the elements of
the scanned sequence that are not in the seen set built from the second
sequence; emitted elements are not themselves recorded, so duplicates
survive. -/
def exceptScan {α : Type} [DecidableEq α] (seen : List α) : List α → List α
  | [] => []
  | x :: xs => if x ∈ seen then exceptScan seen xs else x :: exceptScan seen xs

/-- `Query.Except` (`linq.go`): build the seen set from `l₂`, then scan
`l₁`. -/
def exceptRun {α : Type} [DecidableEq α] (l₁ l₂ : List α) : List α :=
  exceptScan l₂ l₁

/-- The emitting phase of `Query.Intersect` (`linq.go`): emit elements
present in the seen set, deleting each emitted element from the set (so the
output is duplicate-free). -/
def intersectScan {α : Type} [DecidableEq α] (seen : List α) :
    List α → List α
  | [] => []
  | x :: xs =>
      if x ∈ seen then
        x :: intersectScan (seen.filter (fun y => decide ¬(y = x))) xs
      else intersectScan seen xs

/-- `Query.Intersect` (`linq.go`): build the seen set from `l₂`, then scan
`l₁`. -/
def intersectRun {α : Type} [DecidableEq α] (l₁ l₂ : List α) : List α :=
  intersectScan l₂ l₁

theorem dedupScan_idem {α : Type} [DecidableEq α] (l seen : List α) :
    (dedupScan seen ((dedupScan seen l).1)).1 = (dedupScan seen l).1 := by
  induction l generalizing seen with
  | nil => simp [dedupScan]
  | cons x xs ih =>
      by_cases hx : x ∈ seen
      · simp only [dedupScan, if_pos hx]
        exact ih seen
      · simp only [dedupScan, if_neg hx]
        rw [ih (x :: seen)]

theorem mem_dedupScan_seen {α : Type} [DecidableEq α] (l seen : List α)
    (x : α) (hx : x ∈ l ∨ x ∈ seen) : x ∈ (dedupScan seen l).2 := by
  induction l generalizing seen with
  | nil =>
      rcases hx with h | h
      · simp at h
      · simpa [dedupScan] using h
  | cons y ys ih =>
      by_cases hy : y ∈ seen
      · simp only [dedupScan, if_pos hy]
        apply ih
        rcases hx with h | h
        · rcases List.mem_cons.mp h with rfl | h'
          · exact Or.inr hy
          · exact Or.inl h'
        · exact Or.inr h
      · simp only [dedupScan, if_neg hy]
        apply ih
        rcases hx with h | h
        · rcases List.mem_cons.mp h with rfl | h'
          · exact Or.inr (List.mem_cons_self _ _)
          · exact Or.inl h'
        · exact Or.inr (List.mem_cons_of_mem _ h)

theorem dedupScan_eq_nil {α : Type} [DecidableEq α] (l seen : List α)
    (h : ∀ x ∈ l, x ∈ seen) : (dedupScan seen l).1 = [] := by
  induction l with
  | nil => rfl
  | cons x xs ih =>
      have hx : x ∈ seen := h x (List.mem_cons_self _ _)
      simp only [dedupScan, if_pos hx]
      exact ih fun y hy => h y (List.mem_cons_of_mem _ hy)

theorem not_mem_of_mem_exceptScan {α : Type} [DecidableEq α]
    (l seen : List α) (x : α) (hx : x ∈ exceptScan seen l) : x ∉ seen := by
  induction l with
  | nil => exact absurd hx (List.not_mem_nil x)
  | cons y ys ih =>
      by_cases hy : y ∈ seen
      · simp only [exceptScan, if_pos hy] at hx
        exact ih hx
      · simp only [exceptScan, if_neg hy] at hx
        rcases List.mem_cons.mp hx with rfl | h'
        · exact hy
        · exact ih h'

theorem intersectScan_eq_nil {α : Type} [DecidableEq α] (l seen : List α)
    (h : ∀ x ∈ l, x ∉ seen) : intersectScan seen l = [] := by
  induction l with
  | nil => rfl
  | cons x xs ih =>
      have hx : x ∉ seen := h x (List.mem_cons_self _ _)
      simp only [intersectScan, if_neg hx]
      exact ih fun y hy => h y (List.mem_cons_of_mem _ hy)

/-- C5 (amended).  Over the `linq.go` set operators: `Distinct` is
idempotent, `Union S S` equals `Distinct S`, and
`Intersect S2 (Except S1 S2)` is empty (the claim's
`Intersect(S1, Except(S1, S2))` instead returns `Except(S1, S2)`, see the
counterexample). -/
theorem C5_set_algebra_amended {α : Type} [DecidableEq α]
    (S S1 S2 : List α) :
    distinctRun (distinctRun S) = distinctRun S ∧
      unionRun S S = distinctRun S ∧
      intersectRun S2 (exceptRun S1 S2) = [] := by
  refine ⟨dedupScan_idem S [], ?_, ?_⟩
  · have h : (dedupScan (dedupScan ([] : List α) S).2 S).1 = [] := by
      apply dedupScan_eq_nil
      intro x hx
      exact mem_dedupScan_seen S [] x (Or.inl hx)
    simp [unionRun, distinctRun, h]
  · apply intersectScan_eq_nil
    intro x hx hmem
    exact not_mem_of_mem_exceptScan S1 S2 x hmem hx

/-- C5 (counterexample).  The claim's third identity
`Intersect(S1, Except(S1, S2)) = empty` fails at `S1 = [1]`, `S2 = []`:
`Except([1], [])` is `[1]` and `Intersect([1], [1])` is `[1]`, not the
empty sequence. -/
theorem C5_intersect_except_counterexample :
    intersectRun [1] (exceptRun [1] ([] : List Nat)) = [1] ∧
      intersectRun [1] (exceptRun [1] ([] : List Nat)) ≠ [] := by
  constructor
  · rfl
  · decide

/-! ### Adaptive membership tests (`utils.go`, `linq-test/crossover_test.go`):
`Every` / `Some` / `None`, nested-scan vs hash-set strategies. -/

/-- `slices.Contains` / `SliceContains` (`utils.go`): linear scan. -/
def sliceContains {α : Type} [DecidableEq α] : List α → α → Bool
  | [], _ => false
  | x :: xs, element => if x = element then true else sliceContains xs element

/-- Lookup in the hash set built by inserting every element of a list
(`seen := make(map[T]struct{})` loops in the big-data variants): membership
in the inserted elements. -/
def hashSetContains {α : Type} [DecidableEq α] (seen : List α) (x : α) :
    Bool :=
  decide (x ∈ seen)

/-- `EverySmallData` (`utils.go`): nested scan; false at the first probe
element missing from the collection. -/
def everySmallData {α : Type} [DecidableEq α] (list : List α) :
    List α → Bool
  | [] => true
  | x :: xs => if sliceContains list x then everySmallData list xs else false

/-- The probe loop of `EveryBigData` (`utils.go`) after the seen set has
been built from `list`. -/
def everyBigScan {α : Type} [DecidableEq α] (list : List α) :
    List α → Bool
  | [] => true
  | x :: xs => if hashSetContains list x then everyBigScan list xs else false

/-- `EveryBigData` (`utils.go`): guards for the empty probe set and the
empty collection, then a hash-set scan. -/
def everyBigData {α : Type} [DecidableEq α] (list subset : List α) : Bool :=
  if subset.isEmpty then true
  else if list.isEmpty then false
  else everyBigScan list subset

/-- `Every` (`utils.go`): threshold dispatch between the two strategies
(`m > 100 || n > 2000 && m > 50` selects the hash-set variant). -/
def every {α : Type} [DecidableEq α] (list subset : List α) : Bool :=
  if 100 < subset.length ∨ (2000 < list.length ∧ 50 < subset.length) then
    everyBigData list subset
  else everySmallData list subset

/-- `Some` / `SomeSmallData` (`utils.go`, `crossover_test.go`): nested
scan; true at the first probe element present in the collection. -/
def someSmallData {α : Type} [DecidableEq α] (list : List α) :
    List α → Bool
  | [] => false
  | x :: xs => if sliceContains list x then true else someSmallData list xs

/-- The probe loop of `SomeBigData` (`crossover_test.go`). -/
def someBigScan {α : Type} [DecidableEq α] (list : List α) :
    List α → Bool
  | [] => false
  | x :: xs => if hashSetContains list x then true else someBigScan list xs

/-- `SomeBigData` (`crossover_test.go`): false when either input is empty,
else a hash-set scan. -/
def someBigData {α : Type} [DecidableEq α] (list subset : List α) : Bool :=
  if subset.isEmpty ∨ list.isEmpty then false
  else someBigScan list subset

/-- `None` / `NoneSmallData` (`utils.go`, `crossover_test.go`): nested
scan; false at the first probe element present in the collection. -/
def noneSmallData {α : Type} [DecidableEq α] (list : List α) :
    List α → Bool
  | [] => true
  | x :: xs => if sliceContains list x then false else noneSmallData list xs

/-- The probe loop of `NoneBigData` (`crossover_test.go`). -/
def noneBigScan {α : Type} [DecidableEq α] (list : List α) :
    List α → Bool
  | [] => true
  | x :: xs => if hashSetContains list x then false else noneBigScan list xs

/-- `NoneBigData` (`crossover_test.go`): true when either input is empty,
else a hash-set scan. -/
def noneBigData {α : Type} [DecidableEq α] (list subset : List α) : Bool :=
  if subset.isEmpty ∨ list.isEmpty then true
  else noneBigScan list subset

theorem sliceContains_eq_hashSetContains {α : Type} [DecidableEq α]
    (l : List α) (x : α) : sliceContains l x = hashSetContains l x := by
  induction l with
  | nil => simp [sliceContains, hashSetContains]
  | cons y ys ih =>
      by_cases h : y = x
      · simp [sliceContains, hashSetContains, h]
      · simp only [sliceContains, if_neg h, ih, hashSetContains]
        simp [List.mem_cons, Ne.symm h]

theorem sliceContains_nil_false {α : Type} [DecidableEq α] (x : α) :
    sliceContains ([] : List α) x = false := rfl

theorem everySmall_eq_bigScan {α : Type} [DecidableEq α]
    (list subset : List α) :
    everySmallData list subset = everyBigScan list subset := by
  induction subset with
  | nil => rfl
  | cons x xs ih =>
      simp only [everySmallData, everyBigScan,
        sliceContains_eq_hashSetContains, ih]

theorem someSmall_eq_bigScan {α : Type} [DecidableEq α]
    (list subset : List α) :
    someSmallData list subset = someBigScan list subset := by
  induction subset with
  | nil => rfl
  | cons x xs ih =>
      simp only [someSmallData, someBigScan,
        sliceContains_eq_hashSetContains, ih]

theorem noneSmall_eq_bigScan {α : Type} [DecidableEq α]
    (list subset : List α) :
    noneSmallData list subset = noneBigScan list subset := by
  induction subset with
  | nil => rfl
  | cons x xs ih =>
      simp only [noneSmallData, noneBigScan,
        sliceContains_eq_hashSetContains, ih]

theorem everySmall_nil_list {α : Type} [DecidableEq α] (subset : List α)
    (h : subset ≠ []) : everySmallData ([] : List α) subset = false := by
  cases subset with
  | nil => exact absurd rfl h
  | cons x xs => simp [everySmallData, sliceContains]

theorem someSmall_nil_list {α : Type} [DecidableEq α] (subset : List α) :
    someSmallData ([] : List α) subset = false := by
  induction subset with
  | nil => rfl
  | cons x xs ih => simp [someSmallData, sliceContains, ih]

theorem noneSmall_nil_list {α : Type} [DecidableEq α] (subset : List α) :
    noneSmallData ([] : List α) subset = true := by
  induction subset with
  | nil => rfl
  | cons x xs ih => simp [noneSmallData, sliceContains, ih]

/-- C9.  The nested-scan and hash-set strategies of the membership tests
agree on every input (`EverySmallData = EveryBigData`, likewise for
`Some` and `None`), so the threshold dispatch in `Every` never changes the
result; and the conventional empty-input results hold: `every(L, ∅) =
true`, `some(L, ∅) = false`, `none(L, ∅) = true`, and `false/false/true`
against an empty collection with a non-empty probe set. -/
theorem C9_membership_strategies_agree {α : Type} [DecidableEq α]
    (list subset : List α) :
    everySmallData list subset = everyBigData list subset ∧
      someSmallData list subset = someBigData list subset ∧
      noneSmallData list subset = noneBigData list subset ∧
      every list subset = everySmallData list subset ∧
      (subset = [] →
        everySmallData list subset = true ∧
          someSmallData list subset = false ∧
          noneSmallData list subset = true) ∧
      (list = [] → subset ≠ [] →
        everySmallData list subset = false ∧
          someSmallData list subset = false ∧
          noneSmallData list subset = true) := by
  have hevery : everySmallData list subset = everyBigData list subset := by
    rw [everyBigData]
    by_cases hs : subset.isEmpty
    · rw [if_pos hs]
      rw [List.isEmpty_iff] at hs
      subst hs
      rfl
    · rw [if_neg hs]
      by_cases hl : list.isEmpty
      · rw [if_pos hl]
        rw [List.isEmpty_iff] at hl
        subst hl
        rw [List.isEmpty_iff] at hs
        exact everySmall_nil_list subset hs
      · rw [if_neg hl]
        exact everySmall_eq_bigScan list subset
  have hsome : someSmallData list subset = someBigData list subset := by
    rw [someBigData]
    by_cases hse : subset.isEmpty ∨ list.isEmpty
    · rw [if_pos hse]
      rcases hse with hs | hl
      · rw [List.isEmpty_iff] at hs
        subst hs
        rfl
      · rw [List.isEmpty_iff] at hl
        subst hl
        exact someSmall_nil_list subset
    · rw [if_neg hse]
      exact someSmall_eq_bigScan list subset
  have hnone : noneSmallData list subset = noneBigData list subset := by
    rw [noneBigData]
    by_cases hse : subset.isEmpty ∨ list.isEmpty
    · rw [if_pos hse]
      rcases hse with hs | hl
      · rw [List.isEmpty_iff] at hs
        subst hs
        rfl
      · rw [List.isEmpty_iff] at hl
        subst hl
        exact noneSmall_nil_list subset
    · rw [if_neg hse]
      exact noneSmall_eq_bigScan list subset
  refine ⟨hevery, hsome, hnone, ?_, ?_, ?_⟩
  · rw [every]
    by_cases hdisp :
        100 < subset.length ∨ (2000 < list.length ∧ 50 < subset.length)
    · rw [if_pos hdisp, ← hevery]
    · rw [if_neg hdisp]
  · intro hs
    subst hs
    exact ⟨rfl, rfl, rfl⟩
  · intro hl hs
    subst hl
    exact ⟨everySmall_nil_list subset hs, someSmall_nil_list subset,
      noneSmall_nil_list subset⟩

/-- Witness for C9: concrete instantiation discharging the two
conditional conjuncts. -/
theorem C9_membership_strategies_agree_witness :
    (everySmallData ([] : List Nat) [3] = false ∧
        someSmallData ([] : List Nat) [3] = false ∧
        noneSmallData ([] : List Nat) [3] = true) ∧
      (everySmallData ([1, 2] : List Nat) [] = true ∧
        someSmallData ([1, 2] : List Nat) [] = false ∧
        noneSmallData ([1, 2] : List Nat) [] = true) ∧
      every ([1, 2] : List Nat) [2] = everySmallData ([1, 2] : List Nat) [2] :=
  ⟨(C9_membership_strategies_agree ([] : List Nat) [3]).2.2.2.2.2 rfl
      (by decide),
    (C9_membership_strategies_agree ([1, 2] : List Nat) []).2.2.2.2.1 rfl,
    (C9_membership_strategies_agree ([1, 2] : List Nat) [2]).2.2.2.1⟩

/-! ### Element-returning terminal operations (`linq.go`): `First`,
`Last`, `Single`.  The Go zero value of the element type is modelled by
`default`. -/

/-- The fast-path scan of `Query.First` with a pending predicate
(`linq.go`): the first slice element passing the predicate, else the zero
value. -/
def firstScan {α : Type} [Inhabited α] (p : α → Bool) : List α → α
  | [] => default
  | x :: xs => if p x then x else firstScan p xs

/-- `Query.First` (`linq.go`): fast path returns the first (passing)
backing-slice element, generic path the iterator's first element; the zero
value when there is none. -/
def firstQ {α : Type} [Inhabited α] (q : Query α) : α :=
  match q.fastSlice with
  | some s =>
      match q.fastWhere with
      | none =>
          match s with
          | [] => default
          | x :: _ => x
      | some p => firstScan p s
  | none =>
      match q.run with
      | [] => default
      | x :: _ => x

/-- The generic accumulation of `Query.Last` (`linq.go`): `r` starts at
the zero value and is overwritten by every pulled element. -/
def lastLoop {α : Type} [Inhabited α] : List α → α
  | [] => default
  | [x] => x
  | _ :: x :: xs => lastLoop (x :: xs)

/-- `Query.Last` (`linq.go`): the pure-slice fast path reads the final
element directly; the predicate fast path scans the slice from the back
(modelled as a forward scan of the reversed slice); the generic path folds
the iterator. -/
def lastQ {α : Type} [Inhabited α] (q : Query α) : α :=
  match q.fastSlice, q.fastWhere with
  | some s, none =>
      match s.getLast? with
      | some x => x
      | none => default
  | some s, some p => firstScan p s.reverse
  | none, _ => lastLoop q.run

/-- `Query.Single` (`linq.go`): pull twice from the iterator; the zero
value unless exactly one pull succeeds. -/
def singleQ {α : Type} [Inhabited α] (q : Query α) : α :=
  match q.run with
  | [] => default
  | [x] => x
  | _ :: _ :: _ => default

theorem firstScan_of_all_false {α : Type} [Inhabited α] (p : α → Bool)
    (l : List α) (h : ∀ x ∈ l, p x = false) : firstScan p l = default := by
  induction l with
  | nil => rfl
  | cons x xs ih =>
      have hx : p x = false := h x (List.mem_cons_self _ _)
      simp only [firstScan, hx, Bool.false_eq_true, if_false]
      exact ih fun y hy => h y (List.mem_cons_of_mem _ hy)

theorem whereLoop_nil_all_false {α : Type} (p : α → Bool) (l : List α)
    (h : whereLoop p l = []) : ∀ x ∈ l, p x = false := by
  rw [whereLoop_eq_filter] at h
  intro x hx
  rcases List.filter_eq_nil_iff.mp h x hx |> Bool.eq_false_iff.mpr with h'
  exact h'

/-- C10.  The element-returning terminal operations never signal failure:
on an empty sequence (including a fast-path query whose accumulated
predicate rejects every backing element) `First`, `Last` and `Single`
return the zero value, and `Single` also returns the zero value when the
sequence has more than one element. -/
theorem C10_terminal_zero_values {α : Type} [Inhabited α] (q : Query α)
    (hinv : QInv q) :
    (q.run = [] →
        firstQ q = default ∧ lastQ q = default ∧ singleQ q = default) ∧
      (∀ x y rest, q.run = x :: y :: rest → singleQ q = default) := by
  obtain ⟨r, fs, fw⟩ := q
  constructor
  · intro hrun
    replace hrun : r = [] := hrun
    subst hrun
    refine ⟨?_, ?_, rfl⟩
    · cases fs with
      | none => rfl
      | some s =>
          have hr := hinv s rfl
          cases fw with
          | none =>
              replace hr : ([] : List α) = s := by
                rw [Option.getD, whereLoop_true] at hr
                exact hr
              cases hr
              rfl
          | some p =>
              replace hr : ([] : List α) = whereLoop p s := hr
              show firstScan p s = default
              exact firstScan_of_all_false p s
                (whereLoop_nil_all_false p s hr.symm)
    · cases fs with
      | none => rfl
      | some s =>
          have hr := hinv s rfl
          cases fw with
          | none =>
              replace hr : ([] : List α) = s := by
                rw [Option.getD, whereLoop_true] at hr
                exact hr
              cases hr
              rfl
          | some p =>
              replace hr : ([] : List α) = whereLoop p s := hr
              show firstScan p s.reverse = default
              apply firstScan_of_all_false
              intro x hx
              exact whereLoop_nil_all_false p s hr.symm x
                (List.mem_reverse.mp hx)
  · intro x y rest hrun
    replace hrun : r = x :: y :: rest := hrun
    subst hrun
    rfl

/-- Witness for C10: a slice query whose accumulated predicate rejects
everything yields the zero value from all three terminals, and `Single` on
a two-element slice yields the zero value. -/
theorem C10_terminal_zero_values_witness :
    (firstQ (whereQ (fromSlice [1, 2, 3]) (fun _ => false)) = 0 ∧
        lastQ (whereQ (fromSlice [1, 2, 3]) (fun _ => false)) = 0 ∧
        singleQ (whereQ (fromSlice [1, 2, 3]) (fun _ => false)) = 0) ∧
      singleQ (fromSlice [5, 6]) = 0 :=
  ⟨(C10_terminal_zero_values (whereQ (fromSlice [1, 2, 3]) (fun _ => false))
      (whereQ_run_inv (fromSlice [1, 2, 3]) (QInv_fromSlice _)
        (fun _ => false)).2).1 rfl,
    (C10_terminal_zero_values (fromSlice [5, 6])
      (QInv_fromSlice _)).2 5 6 [] rfl⟩

end Linq

/-! ### Ordering operators of the push-based revision (`sort.go`):
`OrderBy`, `OrderByDescending`, `ThenBy`, `ThenByDescending`.
The call to `slices.SortFunc` is a Go standard-library call, modelled by
its documented contract: the result is a permutation of the input, sorted
for the comparator when the comparator is consistent — and nothing more
(`slices.SortFunc` is documented as not stable). -/

/-- `cmp.Compare` (Go standard library) for a linearly ordered key type:
`-1` when `x < y`, `1` when `x > y`, `0` otherwise. -/
def compareInt {κ : Type} [LinearOrder κ] (x y : κ) : Int :=
  if x < y then -1 else if y < x then 1 else 0

/-- Model of the push-based `Query[T]` of `query.go`/`sort.go`, restricted
to what the ordering operators touch: the produced sequence (`run`), the
accumulated comparator (`compare`), and the pre-ordering source sequence
(`sortSource`). -/
structure QueryS (α : Type) where
  run : List α
  compare : Option (α → α → Int)
  sortSourceRun : Option (List α)

/-- `From` (`query.go`), restricted to the `QueryS` fields. -/
def fromS {α : Type} (source : List α) : QueryS α :=
  ⟨source, none, none⟩

/-- `Query.HasOrder` (`sort.go`): whether a comparator has been set. -/
def hasOrderS {α : Type} (q : QueryS α) : Bool :=
  q.compare.isSome

/-- The documented contract of `slices.SortFunc`: the output is a
permutation of the input, and whenever the comparator's nonpositive part
is total and transitive the output is pairwise nondecreasing for it.
Stability is deliberately not part of the contract. -/
def SortFuncOk {α : Type} (s : (α → α → Int) → List α → List α) : Prop :=
  ∀ c l, (s c l).Perm l ∧
    ((∀ x y, c x y ≤ 0 ∨ c y x ≤ 0) →
      (∀ x y z, c x y ≤ 0 → c y z ≤ 0 → c x z ≤ 0) →
      (s c l).Pairwise (fun x y => c x y ≤ 0))

/-- `chainComparisons` (`sort.go`): tie-break composition; the secondary
comparator decides exactly when the primary returns `0`. -/
def chainComparisonsS {α : Type} (a b : α → α → Int) : α → α → Int :=
  fun x y => if a x y ≠ 0 then a x y else b x y

/-- `orderBy` (`sort.go`): re-sort the original (pre-ordering) source —
`sortSource` when present, the query itself otherwise — with the full
comparator chain; record the chain and the source. -/
def orderByS {α : Type} (sf : (α → α → Int) → List α → List α)
    (cmpFn : α → α → Int) (q : QueryS α) : QueryS α :=
  let srcRun := q.sortSourceRun.getD q.run
  ⟨sf cmpFn srcRun, some cmpFn, some srcRun⟩

/-- `OrderBy` (`sort.go`): ascending primary key. -/
def OrderByS {α κ : Type} [LinearOrder κ]
    (sf : (α → α → Int) → List α → List α) (q : QueryS α) (key : α → κ) :
    QueryS α :=
  orderByS sf (fun a b => compareInt (key a) (key b)) q

/-- `OrderByDescending` (`sort.go`): descending primary key (`b` compared
against `a`). -/
def OrderByDescS {α κ : Type} [LinearOrder κ]
    (sf : (α → α → Int) → List α → List α) (q : QueryS α) (key : α → κ) :
    QueryS α :=
  orderByS sf (fun a b => compareInt (key b) (key a)) q

/-- `ThenBy` (`sort.go`): returns the query unchanged when no prior
ordering exists, else chains an ascending secondary comparator. -/
def ThenByS {α κ : Type} [LinearOrder κ]
    (sf : (α → α → Int) → List α → List α) (q : QueryS α) (key : α → κ) :
    QueryS α :=
  match q.compare with
  | none => q
  | some c =>
      orderByS sf
        (chainComparisonsS c (fun a b => compareInt (key a) (key b))) q

/-- `ThenByDescending` (`sort.go`): returns the query unchanged when no
prior ordering exists, else chains a descending secondary comparator. -/
def ThenByDescS {α κ : Type} [LinearOrder κ]
    (sf : (α → α → Int) → List α → List α) (q : QueryS α) (key : α → κ) :
    QueryS α :=
  match q.compare with
  | none => q
  | some c =>
      orderByS sf
        (chainComparisonsS c (fun a b => compareInt (key b) (key a))) q

/-- An executable sorting function satisfying the `slices.SortFunc`
contract (used to instantiate witnesses). -/
def sortFuncModel {α : Type} (c : α → α → Int) (l : List α) : List α :=
  l.insertionSort (fun x y => c x y ≤ 0)

theorem sortFuncModel_ok {α : Type} : SortFuncOk (sortFuncModel (α := α)) := by
  intro c l
  constructor
  · exact List.perm_insertionSort _ l
  · intro htot htrans
    haveI : IsTotal α (fun x y => c x y ≤ 0) := ⟨htot⟩
    haveI : IsTrans α (fun x y => c x y ≤ 0) := ⟨htrans⟩
    exact List.sorted_insertionSort _ l

theorem compareInt_le_zero {κ : Type} [LinearOrder κ] (x y : κ) :
    compareInt x y ≤ 0 ↔ x ≤ y := by
  rcases lt_trichotomy x y with h | h | h
  · simp [compareInt, h, le_of_lt h]
  · subst h
    simp [compareInt]
  · have h1 : ¬x < y := not_lt_of_lt h
    have h2 : ¬x ≤ y := not_le_of_lt h
    simp [compareInt, h1, h, h2]

theorem compareInt_ne_zero {κ : Type} [LinearOrder κ] (x y : κ) :
    compareInt x y ≠ 0 ↔ x ≠ y := by
  rcases lt_trichotomy x y with h | h | h
  · simp [compareInt, h, ne_of_lt h]
  · subst h
    simp [compareInt]
  · have h1 : ¬x < y := not_lt_of_lt h
    simp [compareInt, h1, h, (ne_of_lt h).symm]

theorem chainAsc_le_zero {α κ : Type} [LinearOrder κ] (k1 k2 : α → κ)
    (x y : α) :
    chainComparisonsS (fun a b => compareInt (k1 a) (k1 b))
        (fun a b => compareInt (k2 a) (k2 b)) x y ≤ 0 ↔
      k1 x < k1 y ∨ (k1 x = k1 y ∧ k2 x ≤ k2 y) := by
  show (if compareInt (k1 x) (k1 y) ≠ 0 then compareInt (k1 x) (k1 y)
      else compareInt (k2 x) (k2 y)) ≤ 0 ↔ _
  by_cases h : compareInt (k1 x) (k1 y) ≠ 0
  · have hne : k1 x ≠ k1 y := (compareInt_ne_zero _ _).mp h
    rw [if_pos h, compareInt_le_zero]
    constructor
    · intro hle
      exact Or.inl (lt_of_le_of_ne hle hne)
    · rintro (hlt | ⟨heq, _⟩)
      · exact le_of_lt hlt
      · exact absurd heq hne
  · have heq : k1 x = k1 y := by
      by_contra hne
      exact h ((compareInt_ne_zero _ _).mpr hne)
    rw [if_neg h, compareInt_le_zero]
    constructor
    · intro hle
      exact Or.inr ⟨heq, hle⟩
    · rintro (hlt | ⟨_, hle⟩)
      · exact absurd heq (ne_of_lt hlt)
      · exact hle

theorem chainDesc_le_zero {α κ : Type} [LinearOrder κ] (k1 k2 : α → κ)
    (x y : α) :
    chainComparisonsS (fun a b => compareInt (k1 b) (k1 a))
        (fun a b => compareInt (k2 a) (k2 b)) x y ≤ 0 ↔
      k1 y < k1 x ∨ (k1 x = k1 y ∧ k2 x ≤ k2 y) := by
  show (if compareInt (k1 y) (k1 x) ≠ 0 then compareInt (k1 y) (k1 x)
      else compareInt (k2 x) (k2 y)) ≤ 0 ↔ _
  by_cases h : compareInt (k1 y) (k1 x) ≠ 0
  · have hne : k1 y ≠ k1 x := (compareInt_ne_zero _ _).mp h
    rw [if_pos h, compareInt_le_zero]
    constructor
    · intro hle
      exact Or.inl (lt_of_le_of_ne hle hne)
    · rintro (hlt | ⟨heq, _⟩)
      · exact le_of_lt hlt
      · exact absurd heq.symm hne
  · have heq : k1 y = k1 x := by
      by_contra hne
      exact h ((compareInt_ne_zero _ _).mpr hne)
    rw [if_neg h, compareInt_le_zero]
    constructor
    · intro hle
      exact Or.inr ⟨heq.symm, hle⟩
    · rintro (hlt | ⟨_, hle⟩)
      · exact absurd heq (ne_of_lt hlt)
      · exact hle

theorem lexAsc_total {α κ : Type} [LinearOrder κ] (k1 k2 : α → κ)
    (x y : α) :
    (k1 x < k1 y ∨ (k1 x = k1 y ∧ k2 x ≤ k2 y)) ∨
      (k1 y < k1 x ∨ (k1 y = k1 x ∧ k2 y ≤ k2 x)) := by
  rcases lt_trichotomy (k1 x) (k1 y) with h | h | h
  · exact Or.inl (Or.inl h)
  · rcases le_total (k2 x) (k2 y) with h2 | h2
    · exact Or.inl (Or.inr ⟨h, h2⟩)
    · exact Or.inr (Or.inr ⟨h.symm, h2⟩)
  · exact Or.inr (Or.inl h)

theorem lexAsc_trans {α κ : Type} [LinearOrder κ] (k1 k2 : α → κ)
    (x y z : α)
    (hxy : k1 x < k1 y ∨ (k1 x = k1 y ∧ k2 x ≤ k2 y))
    (hyz : k1 y < k1 z ∨ (k1 y = k1 z ∧ k2 y ≤ k2 z)) :
    k1 x < k1 z ∨ (k1 x = k1 z ∧ k2 x ≤ k2 z) := by
  rcases hxy with h1 | ⟨h1, h1'⟩ <;> rcases hyz with h2 | ⟨h2, h2'⟩
  · exact Or.inl (lt_trans h1 h2)
  · exact Or.inl (h2 ▸ h1)
  · exact Or.inl (h1 ▸ h2)
  · exact Or.inr ⟨h1.trans h2, le_trans h1' h2'⟩

theorem lexDesc_total {α κ : Type} [LinearOrder κ] (k1 k2 : α → κ)
    (x y : α) :
    (k1 y < k1 x ∨ (k1 x = k1 y ∧ k2 x ≤ k2 y)) ∨
      (k1 x < k1 y ∨ (k1 y = k1 x ∧ k2 y ≤ k2 x)) := by
  rcases lt_trichotomy (k1 x) (k1 y) with h | h | h
  · exact Or.inr (Or.inl h)
  · rcases le_total (k2 x) (k2 y) with h2 | h2
    · exact Or.inl (Or.inr ⟨h, h2⟩)
    · exact Or.inr (Or.inr ⟨h.symm, h2⟩)
  · exact Or.inl (Or.inl h)

theorem lexDesc_trans {α κ : Type} [LinearOrder κ] (k1 k2 : α → κ)
    (x y z : α)
    (hxy : k1 y < k1 x ∨ (k1 x = k1 y ∧ k2 x ≤ k2 y))
    (hyz : k1 z < k1 y ∨ (k1 y = k1 z ∧ k2 y ≤ k2 z)) :
    k1 z < k1 x ∨ (k1 x = k1 z ∧ k2 x ≤ k2 z) := by
  rcases hxy with h1 | ⟨h1, h1'⟩ <;> rcases hyz with h2 | ⟨h2, h2'⟩
  · exact Or.inl (lt_trans h2 h1)
  · exact Or.inl (h2 ▸ h1)
  · exact Or.inl (h1 ▸ h2)
  · exact Or.inr ⟨h1.trans h2, le_trans h1' h2'⟩

/-- C6.  `OrderBy(k1)` then `ThenBy(k2)` yields a permutation of the
source that is sorted primarily by `k1` ascending with ties broken by `k2`
ascending; `OrderByDescending(k1)` then `ThenBy(k2)` reverses only the
primary key's direction.  Quantified over every sorting function meeting
the `slices.SortFunc` contract. -/
theorem C6_orderBy_thenBy {α κ : Type} [LinearOrder κ]
    (sf : (α → α → Int) → List α → List α) (hsf : SortFuncOk sf)
    (src : List α) (k1 k2 : α → κ) :
    ((ThenByS sf (OrderByS sf (fromS src) k1) k2).run.Perm src ∧
        (ThenByS sf (OrderByS sf (fromS src) k1) k2).run.Pairwise
          (fun x y => k1 x < k1 y ∨ (k1 x = k1 y ∧ k2 x ≤ k2 y))) ∧
      ((ThenByS sf (OrderByDescS sf (fromS src) k1) k2).run.Perm src ∧
        (ThenByS sf (OrderByDescS sf (fromS src) k1) k2).run.Pairwise
          (fun x y => k1 y < k1 x ∨ (k1 x = k1 y ∧ k2 x ≤ k2 y))) := by
  constructor
  · obtain ⟨hp, hs⟩ :=
      hsf (chainComparisonsS (fun a b => compareInt (k1 a) (k1 b))
        (fun a b => compareInt (k2 a) (k2 b))) src
    refine ⟨hp, ?_⟩
    have hsorted := hs
      (fun x y => by
        simp only [chainAsc_le_zero]
        exact lexAsc_total k1 k2 x y)
      (fun x y z hxy hyz => by
        simp only [chainAsc_le_zero] at hxy hyz ⊢
        exact lexAsc_trans k1 k2 x y z hxy hyz)
    exact hsorted.imp fun h => (chainAsc_le_zero k1 k2 _ _).mp h
  · obtain ⟨hp, hs⟩ :=
      hsf (chainComparisonsS (fun a b => compareInt (k1 b) (k1 a))
        (fun a b => compareInt (k2 a) (k2 b))) src
    refine ⟨hp, ?_⟩
    have hsorted := hs
      (fun x y => by
        simp only [chainDesc_le_zero]
        exact lexDesc_total k1 k2 x y)
      (fun x y z hxy hyz => by
        simp only [chainDesc_le_zero] at hxy hyz ⊢
        exact lexDesc_trans k1 k2 x y z hxy hyz)
    exact hsorted.imp fun h => (chainDesc_le_zero k1 k2 _ _).mp h

/-- Witness for C6 at a concrete source and key pair. -/
theorem C6_orderBy_thenBy_witness :
    ((ThenByS sortFuncModel
          (OrderByS sortFuncModel
            (fromS [((2 : Nat), (1 : Nat)), (1, 5), (2, 0), (1, 3)])
            (fun p => p.1)) (fun p => p.2)).run.Perm
        [((2 : Nat), (1 : Nat)), (1, 5), (2, 0), (1, 3)] ∧
      (ThenByS sortFuncModel
          (OrderByS sortFuncModel
            (fromS [((2 : Nat), (1 : Nat)), (1, 5), (2, 0), (1, 3)])
            (fun p => p.1)) (fun p => p.2)).run.Pairwise
        (fun x y => x.1 < y.1 ∨ (x.1 = y.1 ∧ x.2 ≤ y.2))) ∧
      ((ThenByS sortFuncModel
          (OrderByDescS sortFuncModel
            (fromS [((2 : Nat), (1 : Nat)), (1, 5), (2, 0), (1, 3)])
            (fun p => p.1)) (fun p => p.2)).run.Perm
        [((2 : Nat), (1 : Nat)), (1, 5), (2, 0), (1, 3)] ∧
        (ThenByS sortFuncModel
          (OrderByDescS sortFuncModel
            (fromS [((2 : Nat), (1 : Nat)), (1, 5), (2, 0), (1, 3)])
            (fun p => p.1)) (fun p => p.2)).run.Pairwise
          (fun x y => y.1 < x.1 ∨ (x.1 = y.1 ∧ x.2 ≤ y.2))) :=
  C6_orderBy_thenBy sortFuncModel sortFuncModel_ok
    [((2 : Nat), (1 : Nat)), (1, 5), (2, 0), (1, 3)]
    (fun p => p.1) (fun p => p.2)

/-- A sorting function meeting the `slices.SortFunc` contract that
reorders one specific tied pair (no contract clause forbids this). -/
def badSortFunc (c : Nat × Nat → Nat × Nat → Int) (l : List (Nat × Nat)) :
    List (Nat × Nat) :=
  if l = [(0, 1), (0, 2)] ∧ c (0, 1) (0, 2) = 0 ∧ c (0, 2) (0, 1) = 0 then
    [(0, 2), (0, 1)]
  else sortFuncModel c l

theorem badSortFunc_ok : SortFuncOk badSortFunc := by
  intro c l
  by_cases h :
      l = [(0, 1), (0, 2)] ∧ c (0, 1) (0, 2) = 0 ∧ c (0, 2) (0, 1) = 0
  · obtain ⟨h1, h2, h3⟩ := h
    subst h1
    have hb : badSortFunc c [(0, 1), (0, 2)] = [(0, 2), (0, 1)] :=
      if_pos ⟨rfl, h2, h3⟩
    constructor
    · rw [hb]
      exact List.Perm.swap _ _ _
    · intro _ _
      rw [hb]
      refine List.Pairwise.cons ?_ (List.pairwise_singleton _ _)
      intro y hy
      rw [List.mem_singleton] at hy
      subst hy
      exact le_of_eq h3
  · have hb : badSortFunc c l = sortFuncModel c l := if_neg h
    constructor
    · rw [hb]
      exact (sortFuncModel_ok c l).1
    · intro htot htrans
      rw [hb]
      exact (sortFuncModel_ok c l).2 htot htrans

/-- C7 (counterexample).  Stability is not guaranteed: there is a sorting
function satisfying the `slices.SortFunc` contract the ordering operators
rely on under which `OrderBy` by the first component reorders the tied
pair `(0,1), (0,2)`, so the claim that the ordering operators perform a
stable sort is false. -/
theorem C7_stability_counterexample :
    ¬ ∀ (sf : (Nat × Nat → Nat × Nat → Int) →
          List (Nat × Nat) → List (Nat × Nat)),
        SortFuncOk sf →
          ∀ (src : List (Nat × Nat)) (k : Nat × Nat → Nat) (v : Nat),
            (OrderByS sf (fromS src) k).run.filter
                (fun x => decide (k x = v))
              = src.filter (fun x => decide (k x = v)) := by
  intro hclaim
  have h := hclaim badSortFunc badSortFunc_ok [(0, 1), (0, 2)]
    (fun p => p.1) 0
  have hrun : (OrderByS badSortFunc (fromS [(0, 1), (0, 2)])
      (fun p : Nat × Nat => p.1)).run = [(0, 2), (0, 1)] := by
    decide
  rw [hrun] at h
  exact absurd h (by decide)

/-- C7 (amended).  The ordering operators produce a permutation of the
source sorted by the comparator chain, for every sorting function meeting
the `slices.SortFunc` contract — but stability is not guaranteed, since
`sort.Slice` (`linq.go`/`orderby.go`) and `slices.SortFunc` (`sort.go`)
are both documented as unstable. -/
theorem C7_sorted_perm_amended {α κ : Type} [LinearOrder κ]
    (sf : (α → α → Int) → List α → List α) (hsf : SortFuncOk sf)
    (src : List α) (k : α → κ) :
    (OrderByS sf (fromS src) k).run.Perm src ∧
      (OrderByS sf (fromS src) k).run.Pairwise (fun x y => k x ≤ k y) := by
  obtain ⟨hp, hs⟩ := hsf (fun a b => compareInt (k a) (k b)) src
  refine ⟨hp, ?_⟩
  have hsorted := hs
    (fun x y => by
      simp only [compareInt_le_zero]
      exact le_total _ _)
    (fun x y z hxy hyz => by
      simp only [compareInt_le_zero] at hxy hyz ⊢
      exact le_trans hxy hyz)
  exact hsorted.imp fun h => (compareInt_le_zero _ _).mp h

/-- Witness for the amended C7 at a concrete source. -/
theorem C7_sorted_perm_amended_witness :
    (OrderByS sortFuncModel (fromS [3, 1, 2]) (fun x : Nat => x)).run.Perm
        [3, 1, 2] ∧
      (OrderByS sortFuncModel (fromS [3, 1, 2])
          (fun x : Nat => x)).run.Pairwise (fun x y => x ≤ y) :=
  C7_sorted_perm_amended sortFuncModel sortFuncModel_ok [3, 1, 2]
    (fun x => x)

/-- C8 (counterexample).  `ThenBy` on a query with no prior ordering
(`HasOrder() == false`) returns the query unchanged — a silent no-op, not
an explicitly signaled caller error. -/
theorem C8_thenBy_noop_counterexample :
    ThenByS sortFuncModel (fromS [3, 1, 2]) (fun x : Nat => x)
        = fromS [3, 1, 2] ∧
      hasOrderS (ThenByS sortFuncModel (fromS [3, 1, 2])
        (fun x : Nat => x)) = false :=
  ⟨rfl, rfl⟩

/-- C8 (amended).  `ThenBy` and `ThenByDescending` on a query without a
prior ordering are silently treated as no-ops: the query is returned
unchanged (the `sort.go` guard; the older `linq.go` revision instead
chains a nil comparator, which crashes at iteration time — also not an
explicit signal). -/
theorem C8_thenBy_noop {α κ : Type} [LinearOrder κ]
    (sf : (α → α → Int) → List α → List α) (q : QueryS α) (k : α → κ)
    (h : hasOrderS q = false) :
    ThenByS sf q k = q ∧ ThenByDescS sf q k = q := by
  obtain ⟨r, cmp, ss⟩ := q
  cases cmp with
  | none => exact ⟨rfl, rfl⟩
  | some c => simp [hasOrderS] at h

/-- Witness for the amended C8 at a concrete unordered query. -/
theorem C8_thenBy_noop_witness :
    hasOrderS (fromS ([5] : List Nat)) = false ∧
      ThenByS sortFuncModel (fromS ([5] : List Nat)) (fun x : Nat => x)
          = fromS [5] ∧
      ThenByDescS sortFuncModel (fromS ([5] : List Nat)) (fun x : Nat => x)
          = fromS [5] :=
  ⟨rfl,
    (C8_thenBy_noop sortFuncModel (fromS [5]) (fun x => x) rfl).1,
    (C8_thenBy_noop sortFuncModel (fromS [5]) (fun x => x) rfl).2⟩

/-! ### `Query.ForEachParallel`, stride fast path (`linq.go`).
For a slice-backed source and `workers > 1` the Go code statically
partitions the indices by stride (`for j := wIdx; j < length; j +=
workers`), one goroutine per stride, with `recover()` installed at the
worker level (not per element).  The set of elements on which the action
runs is therefore schedule-independent and is modelled by a pure function.
`faulty x = true` means the action panics on `x`. -/

/-- One stride worker's loop: skip elements rejected by the pending
predicate, run the action on the rest; a panic is recovered by the
worker-level deferred `recover()`, which ends the worker's loop, so the
remaining stride elements are never executed.  Returns the elements on
which the action ran without panicking. -/
def workerStrideRun {α : Type} (pred : Option (α → Bool))
    (faulty : α → Bool) : List α → List α
  | [] => []
  | x :: xs =>
      if (match pred with | some p => p x | none => true) then
        if faulty x then [] else x :: workerStrideRun pred faulty xs
      else workerStrideRun pred faulty xs

/-- Worker `i`'s stride: the source elements at indices congruent to `i`
modulo `workers`, in source order. -/
def strideItems {α : Type} (source : List α) (workers i : Nat) : List α :=
  (source.enum.filter (fun p => p.1 % workers == i)).map (fun p => p.2)

/-- All elements on which the action runs successfully across the
`workers` stride goroutines of `ForEachParallel`'s fast path. -/
def forEachParallelFastRun {α : Type} (source : List α) (workers : Nat)
    (pred : Option (α → Bool)) (faulty : α → Bool) : List α :=
  ((List.range workers).map
    (fun i => workerStrideRun pred faulty (strideItems source workers i))).flatten

/-- Number of successful action executions of `ForEachParallel`'s stride
fast path. -/
def forEachParallelFastCount {α : Type} (source : List α) (workers : Nat)
    (pred : Option (α → Bool)) (faulty : α → Bool) : Nat :=
  (forEachParallelFastRun source workers pred faulty).length

/-- C3 (evaluation at the failing input).  On a 100-element slice source
with 10 workers and an action that panics exactly at element 50,
`ForEachParallel`'s stride fast path (`linq.go`) executes the action
successfully on only 95 elements — the worker-level `recover()` kills the
panicking worker's loop, dropping its remaining stride elements 60, 70,
80 and 90 — not on the 99 elements required by the claim and by the
repository's own `TestForEachParallelPanicRecovery`. -/
theorem C3_forEachParallel_stride_fault :
    forEachParallelFastCount (List.range 100) 10 none
      (fun x => x == 50) = 95 := by
  decide

/-! ### `SelectAsync` (`linq.go`): early-abandonment shutdown.
The coordination protocol is modelled as a transition system.  A
configuration fixes `M` source elements (those passing the fast-path
predicate), `N` workers, and a consumer that pulls exactly `K` results
and then stops pulling for good (early abandonment).  Worker compute time
is collapsed into dispatch (the selector always terminates), so an
in-flight worker is always at its publish `select`; each in-flight worker
also holds one slot of the `sem` semaphore. -/

/-- A `SelectAsync` / `SelectAsyncCtx` run configuration. -/
structure SACfg where
  M : Nat
  N : Nat
  K : Nat

/-- Coordination state of `SelectAsync` (`linq.go`): `disp` elements
dispatched to workers, `ready` in-flight workers holding a computed
result, `buf` results in the `outCh` buffer (capacity `2*N`), `pulled`
results received by the consumer, `done` whether `doneCh` is closed,
`closedOut` whether `outCh` is closed, `prodAlive` whether the producer
goroutine is still running. -/
structure SASt where
  disp : Nat
  ready : Nat
  buf : Nat
  pulled : Nat
  done : Bool
  closedOut : Bool
  prodAlive : Bool

/-- Transitions of `SelectAsync` (`linq.go`).  `doneCh` is closed only by
the consumer's pull function, and only upon receiving from the
already-closed `outCh` (`if !ok { closeOnce.Do(close(doneCh)) }`); an
abandoning consumer (guard `pulled < K`) therefore never closes it. -/
inductive SAStep (c : SACfg) : SASt → SASt → Prop
  | dispatch (s : SASt) (h1 : s.prodAlive = true) (h2 : s.done = false)
      (h3 : s.disp < c.M) (h4 : s.ready < c.N) :
      SAStep c s { s with disp := s.disp + 1, ready := s.ready + 1 }
  | sendBuf (s : SASt) (h1 : 0 < s.ready) (h2 : s.buf < 2 * c.N) :
      SAStep c s { s with ready := s.ready - 1, buf := s.buf + 1 }
  | workerDone (s : SASt) (h1 : 0 < s.ready) (h2 : s.done = true) :
      SAStep c s { s with ready := s.ready - 1 }
  | prodFinish (s : SASt) (h1 : s.prodAlive = true) (h2 : s.disp = c.M)
      (h3 : s.ready = 0) :
      SAStep c s { s with prodAlive := false, closedOut := true }
  | prodDoneExit (s : SASt) (h1 : s.prodAlive = true) (h2 : s.done = true)
      (h3 : s.ready = 0) :
      SAStep c s { s with prodAlive := false, closedOut := true }
  | pull (s : SASt) (h1 : s.pulled < c.K) (h2 : 0 < s.buf) :
      SAStep c s { s with buf := s.buf - 1, pulled := s.pulled + 1 }
  | pullClosed (s : SASt) (h1 : s.pulled < c.K) (h2 : s.buf = 0)
      (h3 : s.closedOut = true) (h4 : s.done = false) :
      SAStep c s { s with done := true }

/-- Initial `SelectAsync` state: nothing dispatched, producer running. -/
def saInit : SASt := ⟨0, 0, 0, 0, false, false, true⟩

/-- C2 (counterexample).  With 4 source elements, 1 worker and a consumer
that takes only the first result, `SelectAsync` (`linq.go`) reaches a
state with no outgoing transition in which a worker is still blocked on
its send to `outCh`: the shutdown signal is never raised on early
abandonment, so the worker remains blocked forever — refuting the claim
for `SelectAsync`. -/
theorem C2_selectAsync_leak_counterexample :
    ∃ s : SASt,
      Relation.ReflTransGen (SAStep ⟨4, 1, 1⟩) saInit s ∧
        0 < s.ready ∧ ∀ t, ¬ SAStep ⟨4, 1, 1⟩ s t := by
  refine ⟨⟨4, 1, 2, 1, false, false, true⟩, ?_, Nat.one_pos, ?_⟩
  · have t1 := SAStep.dispatch (c := ⟨4, 1, 1⟩) saInit rfl rfl
      (by decide) (by decide)
    have t2 := SAStep.sendBuf (c := ⟨4, 1, 1⟩)
      ⟨1, 1, 0, 0, false, false, true⟩ (by decide) (by decide)
    have t3 := SAStep.pull (c := ⟨4, 1, 1⟩)
      ⟨1, 0, 1, 0, false, false, true⟩ (by decide) (by decide)
    have t4 := SAStep.dispatch (c := ⟨4, 1, 1⟩)
      ⟨1, 0, 0, 1, false, false, true⟩ rfl rfl (by decide) (by decide)
    have t5 := SAStep.sendBuf (c := ⟨4, 1, 1⟩)
      ⟨2, 1, 0, 1, false, false, true⟩ (by decide) (by decide)
    have t6 := SAStep.dispatch (c := ⟨4, 1, 1⟩)
      ⟨2, 0, 1, 1, false, false, true⟩ rfl rfl (by decide) (by decide)
    have t7 := SAStep.sendBuf (c := ⟨4, 1, 1⟩)
      ⟨3, 1, 1, 1, false, false, true⟩ (by decide) (by decide)
    have t8 := SAStep.dispatch (c := ⟨4, 1, 1⟩)
      ⟨3, 0, 2, 1, false, false, true⟩ rfl rfl (by decide) (by decide)
    exact .head t1 (.head t2 (.head t3 (.head t4 (.head t5
      (.head t6 (.head t7 (.head t8 .refl)))))))
  · intro t h
    cases h <;> simp_all

/-! ### `SelectAsyncCtx` (`projection.go`): clean shutdown.
Same configuration shape as `SelectAsync`; `outCh` is unbuffered, and the
consumer loop, its `defer cancel()`, and the `yield`-returned-false path
all run inside the same `iterate` function, so every consumer exit cancels
the worker context. -/

/-- Coordination state of `SelectAsyncCtx` (`projection.go`): `disp`
elements dispatched, `ready` in-flight workers at their publish `select`,
`pulled` results the consumer received, `done` whether the worker context
has been cancelled, `closedOut` whether `outCh` is closed, `prodAlive`
whether the producer goroutine runs, `cAlive` whether the consumer loop
runs. -/
structure CtxSt where
  disp : Nat
  ready : Nat
  pulled : Nat
  done : Bool
  closedOut : Bool
  prodAlive : Bool
  cAlive : Bool

/-- Transitions of `SelectAsyncCtx` (`projection.go`): the producer
dispatches under the semaphore while the context is live and exits through
its `workerCtx.Done()` branch (closing `outCh` by `defer`) once cancelled,
or naturally after the source is drained and `wg.Wait()` returns; a worker
publishes by rendezvous with the live consumer or exits through its
`workerCtx.Done()` branch once cancelled; the consumer cancels on leaving
(both when its caller stops taking results — `yield` returns false — and
when `outCh` closes, via `defer cancel()`). -/
inductive CtxStep (c : SACfg) : CtxSt → CtxSt → Prop
  | dispatch (s : CtxSt) (h1 : s.prodAlive = true) (h2 : s.done = false)
      (h3 : s.disp < c.M) (h4 : s.ready < c.N) :
      CtxStep c s { s with disp := s.disp + 1, ready := s.ready + 1 }
  | send (s : CtxSt) (h1 : 0 < s.ready) (h2 : s.cAlive = true)
      (h3 : s.pulled < c.K) :
      CtxStep c s { s with ready := s.ready - 1, pulled := s.pulled + 1 }
  | workerDone (s : CtxSt) (h1 : 0 < s.ready) (h2 : s.done = true) :
      CtxStep c s { s with ready := s.ready - 1 }
  | prodDoneExit (s : CtxSt) (h1 : s.prodAlive = true) (h2 : s.done = true) :
      CtxStep c s { s with prodAlive := false, closedOut := true }
  | prodFinish (s : CtxSt) (h1 : s.prodAlive = true) (h2 : s.disp = c.M)
      (h3 : s.ready = 0) :
      CtxStep c s { s with prodAlive := false, closedOut := true }
  | consStop (s : CtxSt) (h1 : s.cAlive = true) (h2 : s.pulled = c.K) :
      CtxStep c s { s with cAlive := false, done := true }
  | consClosed (s : CtxSt) (h1 : s.cAlive = true) (h2 : s.closedOut = true) :
      CtxStep c s { s with cAlive := false, done := true }

/-- Initial `SelectAsyncCtx` state. -/
def ctxInit : CtxSt := ⟨0, 0, 0, false, false, true, true⟩

/-- Termination measure for `SelectAsyncCtx` runs. -/
def ctxMeasure (c : SACfg) (s : CtxSt) : Nat :=
  3 * (c.M - s.disp) + s.ready + (if s.prodAlive then 1 else 0) +
    (if s.cAlive then 1 else 0)

theorem ctxMeasure_decreases (c : SACfg) (s t : CtxSt)
    (h : CtxStep c s t) : ctxMeasure c t < ctxMeasure c s := by
  obtain ⟨d, r, p, dn, co, pa, ca⟩ := s
  cases h <;> cases pa <;> cases ca <;> simp_all [ctxMeasure] <;> omega

theorem ctxInv_reachable (c : SACfg) (s : CtxSt)
    (h : Relation.ReflTransGen (CtxStep c) ctxInit s) :
    s.pulled ≤ c.K ∧ (s.cAlive = false → s.done = true) := by
  induction h with
  | refl => exact ⟨Nat.zero_le _, fun h => by simp [ctxInit] at h⟩
  | tail _ hstep ih =>
      obtain ⟨ih1, ih2⟩ := ih
      cases hstep
      all_goals refine ⟨?_, ?_⟩
      all_goals simp_all
      all_goals omega

theorem ctx_terminal_ready_zero (c : SACfg) (s : CtxSt)
    (hreach : Relation.ReflTransGen (CtxStep c) ctxInit s)
    (hterm : ∀ t, ¬ CtxStep c s t) : s.ready = 0 := by
  obtain ⟨hpul, hca⟩ := ctxInv_reachable c s hreach
  by_contra hr
  have hready : 0 < s.ready := Nat.pos_of_ne_zero hr
  cases hdn : s.done with
  | true => exact hterm _ (CtxStep.workerDone s hready hdn)
  | false =>
      cases hcav : s.cAlive with
      | false =>
          have := hca hcav
          rw [hdn] at this
          exact Bool.false_ne_true this
      | true =>
          rcases Nat.lt_or_ge s.pulled c.K with hp | hp
          · exact hterm _ (CtxStep.send s hready hcav hp)
          · exact hterm _
              (CtxStep.consStop s hcav (le_antisymm hpul hp))

/-- C2 (amended).  For `SelectAsyncCtx` the claim holds: every transition
strictly decreases the termination measure (so every run is finite and a
worker can only be "blocked forever" in a state with no outgoing
transition), and in every reachable transition-free state no in-flight
worker remains — consumer exit always cancels the worker context, and
cancelled workers always exit.  (`SelectAsync` violates the claim; see its
counterexample.) -/
theorem C2_selectAsyncCtx_shutdown (c : SACfg) :
    (∀ s t, CtxStep c s t → ctxMeasure c t < ctxMeasure c s) ∧
      ∀ s, Relation.ReflTransGen (CtxStep c) ctxInit s →
        (∀ t, ¬ CtxStep c s t) → s.ready = 0 :=
  ⟨fun s t h => ctxMeasure_decreases c s t h,
    fun s h1 h2 => ctx_terminal_ready_zero c s h1 h2⟩

/-- Witness for the amended C2: with 1 source element, 1 worker and a
consumer abandoning immediately (`K = 0`), the concrete terminal state
reached by cancel-then-producer-exit has no in-flight worker, and the
measure strictly drops along its first step. -/
theorem C2_selectAsyncCtx_shutdown_witness :
    (⟨0, 0, 0, true, true, false, false⟩ : CtxSt).ready = 0 ∧
      ctxMeasure ⟨1, 1, 0⟩ ⟨0, 0, 0, true, false, true, false⟩ <
        ctxMeasure ⟨1, 1, 0⟩ ctxInit := by
  have t1 : CtxStep ⟨1, 1, 0⟩ ctxInit ⟨0, 0, 0, true, false, true, false⟩ :=
    CtxStep.consStop ctxInit rfl rfl
  have t2 : CtxStep ⟨1, 1, 0⟩ ⟨0, 0, 0, true, false, true, false⟩
      ⟨0, 0, 0, true, true, false, false⟩ :=
    CtxStep.prodDoneExit ⟨0, 0, 0, true, false, true, false⟩ rfl rfl
  constructor
  · refine (C2_selectAsyncCtx_shutdown ⟨1, 1, 0⟩).2 _
      (.head t1 (.head t2 .refl)) ?_
    intro t h
    cases h <;> simp_all
  · exact (C2_selectAsyncCtx_shutdown ⟨1, 1, 0⟩).1 _ _ t1
